import Mathlib

/-!
Verification of the Interface Poisoning Analyzer's metric computation core.

The definitions below are a shallow embedding of
`src/interface_poisoning_analyzer.py`:

* `InterfaceInfo` / `ClassInfo` mirror the `InterfaceInfo` dataclass and the
  per-class dict built by `_process_class`.
* `AnalyzerState` mirrors the fields of `AnalysisResult` together with the
  analyzer's `max_call_depth` attribute that the metric phase reads.
* Python dicts are embedded as association lists in insertion order; dict
  lookup is `lookupIface` (first matching key).
* `depthGo` embeds `_get_interface_depth`: the Python function mutates the
  `visited` set in place (`visited.add`), so the embedding threads the
  visited list through the recursion and returns it alongside the result.
  Python's unbounded recursion is embedded with a fuel parameter; the fuel
  bound `store.length + 1` is proved sufficient (`depthGo_some`).
* Rational numbers stand for Python floats; `round3` embeds `round(x, 3)`
  (round-half-to-even, as Python's `round` does).
-/

/-- Embeds the `InterfaceInfo` dataclass.  `extendsL` is the `extends` field
(the word `extends` is reserved in Lean). -/
structure InterfaceInfo where
  name : String
  file_path : String
  methods : List String
  implementations : List String
  usages : List String
  method_calls : List (String × Nat)
  extendsL : List String
deriving DecidableEq

/-- Embeds the per-class dict built by `_process_class`.  `extendsC` is the
`extends` entry (optional parent class). -/
structure ClassInfo where
  name : String
  file_path : String
  implements : List String
  extendsC : Option String
  methods : List String
deriving DecidableEq

/-- The analyzer state read by the metric phase: `result.interfaces`,
`result.classes`, `result.total_classes` and `self.max_call_depth`. -/
structure AnalyzerState where
  interfaces : List (String × InterfaceInfo)
  classes : List (String × ClassInfo)
  total_classes : Nat
  max_call_depth : Nat
deriving DecidableEq

/-- Dict lookup `store[name]` / membership test `name in store` on the
embedded association list (first entry whose key equals `name`). -/
def lookupIface (store : List (String × InterfaceInfo)) (name : String) :
    Option InterfaceInfo :=
  (store.find? (fun p => p.1 == name)).map Prod.snd

/-- The `for parent in iface_info.extends` loop body of
`_get_interface_depth`: folds the recursive calls over the parents,
accumulating `max_depth` and threading the (mutated) visited set. -/
def depthStep (f : String → List String → Option (Nat × List String)) :
    List String → Nat → List String → Option (Nat × List String)
  | [], maxd, visited => some (maxd, visited)
  | p :: ps, maxd, visited =>
    match f p visited with
    | none => none
    | some (d, v) => depthStep f ps (max maxd d) v

/-- Embeds `_get_interface_depth(iface_name, visited)` (lines 230-248).
Returns the computed depth together with the visited set as the call leaves
it (the Python code mutates the set in place, so recursive calls on later
siblings observe names visited by earlier siblings).  `none` means the fuel
ran out; `depthGo_some` below shows that `store.length + 1` fuel always
suffices. -/
def depthGo (store : List (String × InterfaceInfo)) :
    Nat → String → List String → Option (Nat × List String)
  | 0 => fun _ _ => none
  | fuel + 1 => fun name visited =>
    if visited.contains name then some (0, visited)
    else
      match lookupIface store name with
      | none => some (1, visited)
      | some info =>
        let v1 := name :: visited
        if info.extendsL.isEmpty then some (1, v1)
        else
          match depthStep (fun p v => depthGo store fuel p v) info.extendsL 0 v1 with
          | none => none
          | some (m, v2) => some (m + 1, v2)

/-- A top-level depth query `_get_interface_depth(name, set())`: fresh empty
visited set, result projected to the depth.  The fuel `store.length + 1` is
proved sufficient below, so the `none` fallback never fires. -/
def get_interface_depth (store : List (String × InterfaceInfo)) (name : String) : Nat :=
  match depthGo store (store.length + 1) name [] with
  | some dv => dv.1
  | none => 0

/-- Embeds `_calculate_call_depths`: `max_call_depth` starts at 1 and takes
the maximum of every interface's top-level depth query. -/
def maxCallDepth (store : List (String × InterfaceInfo)) : Nat :=
  store.foldl (fun m p => max m (get_interface_depth store p.1)) 1

-- Concrete pure 2-cycle store: A extends B, B extends A.
def cycA : InterfaceInfo := ⟨"A", "A.java", [], [], [], [], ["B"]⟩
def cycB : InterfaceInfo := ⟨"B", "B.java", [], [], [], [], ["A"]⟩
def cycIfaces : List (String × InterfaceInfo) := [("A", cycA), ("B", cycB)]

/-- Embeds Python's `round(q, 3)` (round-half-to-even) as an exact operation
on rationals: the banker's rounding of `q * 1000` divided back by 1000. -/
def roundHalfEven (q : ℚ) : ℤ :=
  if q - (Int.floor q : ℚ) < 1 / 2 then Int.floor q
  else if 1 / 2 < q - (Int.floor q : ℚ) then Int.floor q + 1
  else if Int.floor q % 2 = 0 then Int.floor q else Int.floor q + 1

/-- `round(q, 3)`: three-decimal rounding used for every numeric field of
the per-interface result record. -/
def round3 (q : ℚ) : ℚ := (roundHalfEven (q * 1000) : ℚ) / 1000

/-- The IPI weights (class attributes `ALPHA` .. `DELTA`). -/
def ALPHA : ℚ := 25 / 100
def BETA : ℚ := 15 / 100
def GAMMA : ℚ := 25 / 100
def DELTA : ℚ := 35 / 100

/-- The record returned by `calculate_ipi` (one dict per interface).  All
rational fields carry the values after `round(_, 3)`, as in the source. -/
structure IpiRecord where
  interface : String
  IC : Nat
  SIR : ℚ
  IU : Nat
  UUR : ℚ
  total_methods : Nat
  unused_methods : Nat
  UMR : ℚ
  CallDepth : Nat
  NCD : ℚ
  IPI : ℚ
deriving DecidableEq

/-- Embeds `calculate_ipi(interface_name)` (lines 250-301): `None` when the
name is not a key of the interface store, otherwise the result record. -/
def calculate_ipi (s : AnalyzerState) (interface_name : String) : Option IpiRecord :=
  match lookupIface s.interfaces interface_name with
  | none => none
  | some iface =>
    let ic := iface.implementations.length
    let sir : ℚ := if ic > 0 then 1 / (ic : ℚ) else 1
    let iu := iface.usages.length
    let total_classes := max s.total_classes 1
    let uur : ℚ := (iu : ℚ) / (total_classes : ℚ)
    let total_methods := iface.methods.length
    let unused := (iface.method_calls.filter (fun p => p.2 == 0)).length
    let umr : ℚ := if total_methods > 0 then (unused : ℚ) / (total_methods : ℚ) else 0
    let cd := get_interface_depth s.interfaces interface_name
    let ncd : ℚ :=
      if s.max_call_depth > 1 then ((cd : ℚ) - 1) / ((s.max_call_depth : ℚ) - 1) else 0
    let ipi := ALPHA * sir + BETA * (1 - uur) + GAMMA * umr + DELTA * ncd
    some { interface := interface_name, IC := ic, SIR := round3 sir, IU := iu,
           UUR := round3 uur, total_methods := total_methods,
           unused_methods := unused, UMR := round3 umr, CallDepth := cd,
           NCD := round3 ncd, IPI := round3 ipi }

/-- The exact (un-rounded) value of the local variable `ipi` computed by
`calculate_ipi` just before the record is assembled (lines 282-287). -/
def ipi_exact (s : AnalyzerState) (interface_name : String) : Option ℚ :=
  match lookupIface s.interfaces interface_name with
  | none => none
  | some iface =>
    let ic := iface.implementations.length
    let sir : ℚ := if ic > 0 then 1 / (ic : ℚ) else 1
    let iu := iface.usages.length
    let total_classes := max s.total_classes 1
    let uur : ℚ := (iu : ℚ) / (total_classes : ℚ)
    let total_methods := iface.methods.length
    let unused := (iface.method_calls.filter (fun p => p.2 == 0)).length
    let umr : ℚ := if total_methods > 0 then (unused : ℚ) / (total_methods : ℚ) else 0
    let cd := get_interface_depth s.interfaces interface_name
    let ncd : ℚ :=
      if s.max_call_depth > 1 then ((cd : ℚ) - 1) / ((s.max_call_depth : ℚ) - 1) else 0
    some (ALPHA * sir + BETA * (1 - uur) + GAMMA * umr + DELTA * ncd)

/-- Severity bands of `generate_report` (lines 369-371): the filters
`IPI > 0.7`, `0.4 <= IPI <= 0.7`, `IPI < 0.4` applied to a record's
(rounded) `IPI` field. -/
inductive Sev where
  | HIGH
  | MEDIUM
  | LOW
deriving DecidableEq

/-- The band a given (rounded) IPI value falls into, mirroring the three
report filters. -/
def band (q : ℚ) : Sev :=
  if 7 / 10 < q then Sev.HIGH
  else if 4 / 10 ≤ q ∧ q ≤ 7 / 10 then Sev.MEDIUM
  else Sev.LOW

/-- The severity band `generate_report` assigns to one interface: the band
of its record's `IPI` field. -/
def severityOf (s : AnalyzerState) (name : String) : Option Sev :=
  (calculate_ipi s name).map (fun r => band r.IPI)

/-- One `implementations.append(class_name)` step of
`_find_implementations`: if `iface_name` is a key of the store, append
`class_name` to that interface's implementations list (every entry with
that key is updated; keys are unique in states coming from a dict). -/
def appendImpl (store : List (String × InterfaceInfo)) (iface_name class_name : String) :
    List (String × InterfaceInfo) :=
  if (lookupIface store iface_name).isSome then
    store.map (fun p =>
      if p.1 == iface_name then
        (p.1, { p.2 with implementations := p.2.implementations ++ [class_name] })
      else p)
  else store

/-- Embeds `_find_implementations` (lines 176-181): for every class, for
every name in its `implements` list, append the class name to that
interface's implementations (when the interface exists in the store). -/
def find_implementations (classes : List (String × ClassInfo))
    (store : List (String × InterfaceInfo)) : List (String × InterfaceInfo) :=
  classes.foldl
    (fun acc p => p.2.implements.foldl (fun acc2 iname => appendImpl acc2 iname p.1) acc)
    store

/-- Helper for the specification's depth recursion: the maximum of the
recursive results over the extends-edges, all taken with the same
(path-local) visited set. -/
def maxStep (f : String → List String → Option Nat) :
    List String → List String → Nat → Option Nat
  | [], _, acc => some acc
  | p :: ps, visited, acc =>
    match f p visited with
    | none => none
    | some d => maxStep f ps visited (max acc d)

/-- Modelled from the spec (section 4.3): the reference depth recursion, in
which every recursive call takes the visited-set of the current call
extended by the current name only (a path-local set, not one shared across
sibling branches).  A name already visited contributes 0, a dangling name
contributes 1, a leaf contributes 1, otherwise 1 + max over parents.
Fuel-based; `some` certifies that the recursion completed. -/
def refDepthGo (store : List (String × InterfaceInfo)) :
    Nat → String → List String → Option Nat
  | 0 => fun _ _ => none
  | fuel + 1 => fun name visited =>
    if visited.contains name then some 0
    else
      match lookupIface store name with
      | none => some 1
      | some info =>
        match info.extendsL with
        | [] => some 1
        | ps =>
          match maxStep (fun p v => refDepthGo store fuel p v) ps (name :: visited) 0 with
          | none => none
          | some m => some (m + 1)

/-- Dict lookup `method_calls[m]` on the embedded call-count list. -/
def lookupCall (mc : List (String × Nat)) (m : String) : Option Nat :=
  (mc.find? (fun p => p.1 == m)).map Prod.snd

/-- The UMR formula exactly as the claim states it: the number of entries
of the declared method sequence `M` (duplicates counted independently)
whose recorded call count is zero, divided by `|M|`; 0 when `M` is empty. -/
def umrSpec (info : InterfaceInfo) : ℚ :=
  if info.methods.length = 0 then 0
  else
    ((info.methods.filter (fun m => lookupCall info.method_calls m == some 0)).length : ℚ) /
      (info.methods.length : ℚ)

/-- The result-collection loop of `generate_report` (lines 322-326): one
record per stored interface, in insertion order. -/
def reportResults (s : AnalyzerState) : List IpiRecord :=
  s.interfaces.foldl
    (fun acc p =>
      match calculate_ipi s p.1 with
      | some r => acc ++ [r]
      | none => acc)
    []

/-- The ranking relation of `results.sort(key=lambda x: x['IPI'], reverse=True)`:
`a` may precede `b` when `a`'s rounded IPI is at least `b`'s. -/
def ipiGE (a b : IpiRecord) : Prop := b.IPI ≤ a.IPI

instance : DecidableRel ipiGE := fun a b => inferInstanceAs (Decidable (b.IPI ≤ a.IPI))

instance : IsTotal IpiRecord ipiGE := ⟨fun a b => le_total b.IPI a.IPI⟩

instance : IsTrans IpiRecord ipiGE := ⟨fun _ _ _ hab hbc => le_trans hbc hab⟩

/-- Embeds the stable descending sort of `generate_report` (line 329):
Python's `list.sort` is stable, so the listing is the stable sort of the
records by descending rounded IPI. -/
def sortedResults (s : AnalyzerState) : List IpiRecord :=
  (reportResults s).insertionSort ipiGE

/-- One full run of the report computation over a fixed state.  The second
component is the state as the code leaves it: `calculate_ipi` and
`_get_interface_depth` perform no writes to `self.result` or
`self.max_call_depth` (the only mutation is of the per-call `set()` passed
to the depth query), so the run leaves the analyzer state unchanged. -/
def run_report (s : AnalyzerState) : List IpiRecord × AnalyzerState :=
  (reportResults s, s)

/-! ### Termination of the depth computation

`_get_interface_depth` terminates because every recursive descent into a
stored, not-yet-visited interface adds that name to the visited set; the
number of stored names not yet visited is a strictly decreasing measure.
`depthGo_some` turns this into a fuel bound. -/

/-- The number of store keys not yet in the visited set. -/
def unvisitedCount (store : List (String × InterfaceInfo)) (visited : List String) : Nat :=
  ((store.map Prod.fst).filter (fun n => ! visited.contains n)).length

theorem length_filter_le_of_imp {α : Type} (l : List α) (p q : α → Bool)
    (h : ∀ x ∈ l, p x = true → q x = true) :
    (l.filter p).length ≤ (l.filter q).length := by
  induction l with
  | nil => simp
  | cons a t ih =>
    have ht : ∀ x ∈ t, p x = true → q x = true := fun x hx => h x (List.mem_cons_of_mem a hx)
    rcases hp : p a with _ | _
    · rcases hq : q a with _ | _
      · simpa [List.filter_cons, hp, hq] using ih ht
      · simp only [List.filter_cons, hp, hq, cond_false, cond_true, List.length_cons]
        exact Nat.le_succ_of_le (ih ht)
    · have hq := h a (List.mem_cons_self a t) hp
      simp only [List.filter_cons, hp, hq, cond_true, List.length_cons]
      exact Nat.succ_le_succ (ih ht)

theorem length_filter_unvisited_lt {name : String} {visited : List String}
    (l : List String) (hmem : name ∈ l) (hnv : visited.contains name = false) :
    (l.filter (fun n => ! (name :: visited).contains n)).length <
      (l.filter (fun n => ! visited.contains n)).length := by
  induction l with
  | nil => cases hmem
  | cons a t ih =>
    have himp : ∀ x ∈ t, (! (name :: visited).contains x) = true →
        (! visited.contains x) = true := by
      intro x _ hx
      simp only [Bool.not_eq_true', List.contains_cons, Bool.or_eq_false_iff] at hx ⊢
      exact hx.2
    by_cases ha : a = name
    · subst ha
      have h1 : ((a :: visited).contains a) = true := by
        simp [List.contains_cons]
      simp only [List.filter_cons, h1, Bool.not_true, cond_false, hnv, Bool.not_false,
        cond_true, List.length_cons]
      exact Nat.lt_succ_of_le (length_filter_le_of_imp t _ _ himp)
    · have h2 : ((name :: visited).contains a) = (visited.contains a) := by
        rw [List.contains_cons, show (a == name) = false from beq_eq_false_iff_ne.mpr ha,
          Bool.false_or]
      have hmem' : name ∈ t := by
        rcases List.mem_cons.mp hmem with h | h
        · exact absurd h.symm ha
        · exact h
      rcases hv : visited.contains a with _ | _
      · simp only [List.filter_cons, h2, hv, Bool.not_false, cond_true, List.length_cons]
        exact Nat.succ_lt_succ (ih hmem')
      · simp only [List.filter_cons, h2, hv, Bool.not_true, cond_false]
        exact ih hmem'

theorem mem_keys_of_lookupIface_some {store : List (String × InterfaceInfo)}
    {name : String} {info : InterfaceInfo} (h : lookupIface store name = some info) :
    name ∈ store.map Prod.fst := by
  unfold lookupIface at h
  rcases hf : store.find? (fun p => p.1 == name) with _ | pr
  · rw [hf] at h; cases h
  · have hmem := List.mem_of_find?_eq_some hf
    have hpred := List.find?_some hf
    have : pr.1 = name := by simpa using hpred
    exact this ▸ List.mem_map_of_mem Prod.fst hmem

theorem unvisitedCount_cons_lt {store : List (String × InterfaceInfo)}
    {name : String} {visited : List String} {info : InterfaceInfo}
    (hl : lookupIface store name = some info) (hnv : visited.contains name = false) :
    unvisitedCount store (name :: visited) < unvisitedCount store visited :=
  length_filter_unvisited_lt _ (mem_keys_of_lookupIface_some hl) hnv

theorem depthStep_some (store : List (String × InterfaceInfo)) (fuel : Nat)
    (hIH : ∀ name visited, unvisitedCount store visited < fuel →
      ∃ d v, depthGo store fuel name visited = some (d, v) ∧
        unvisitedCount store v ≤ unvisitedCount store visited) :
    ∀ ps maxd visited, unvisitedCount store visited < fuel →
      ∃ m v2, depthStep (fun p v => depthGo store fuel p v) ps maxd visited = some (m, v2) ∧
        unvisitedCount store v2 ≤ unvisitedCount store visited := by
  intro ps
  induction ps with
  | nil => exact fun maxd visited _ => ⟨maxd, visited, rfl, Nat.le_refl _⟩
  | cons p ps ih =>
    intro maxd visited hlt
    obtain ⟨d, v, hgo, hle⟩ := hIH p visited hlt
    obtain ⟨m, v2, hstep, hle2⟩ := ih (max maxd d) v (Nat.lt_of_le_of_lt hle hlt)
    exact ⟨m, v2, by simpa [depthStep, hgo] using hstep, Nat.le_trans hle2 hle⟩

theorem depthGo_some (store : List (String × InterfaceInfo)) :
    ∀ fuel name visited, unvisitedCount store visited < fuel →
      ∃ d v, depthGo store fuel name visited = some (d, v) ∧
        unvisitedCount store v ≤ unvisitedCount store visited := by
  intro fuel
  induction fuel with
  | zero => intro name visited h; exact absurd h (Nat.not_lt_zero _)
  | succ f ih =>
    intro name visited hlt
    by_cases hc : name ∈ visited
    · exact ⟨0, visited, by simp [depthGo, hc], Nat.le_refl _⟩
    · rcases hls : lookupIface store name with _ | info
      · exact ⟨1, visited, by simp [depthGo, hc, hls], Nat.le_refl _⟩
      · have hdec := unvisitedCount_cons_lt hls (by simpa using hc)
        have h2 : unvisitedCount store (name :: visited) < f :=
          Nat.lt_of_lt_of_le hdec (Nat.lt_succ_iff.mp hlt)
        by_cases he : info.extendsL = []
        · exact ⟨1, name :: visited, by simp [depthGo, hc, hls, he],
            Nat.le_of_lt hdec⟩
        · obtain ⟨m, v2, hstep, hle⟩ :=
            depthStep_some store f ih info.extendsL 0 (name :: visited) h2
          exact ⟨m + 1, v2, by simp [depthGo, hc, hls, he, hstep],
            Nat.le_trans hle (Nat.le_of_lt hdec)⟩

theorem unvisitedCount_nil (store : List (String × InterfaceInfo)) :
    unvisitedCount store [] = store.length := by
  simp [unvisitedCount]

/-- Totality of the top-level depth query: with the fuel used by
`get_interface_depth`, the walk always completes. -/
theorem depthGo_total (store : List (String × InterfaceInfo)) (name : String) :
    ∃ d v, depthGo store (store.length + 1) name [] = some (d, v) ∧
      get_interface_depth store name = d := by
  obtain ⟨d, v, heq, _⟩ := depthGo_some store (store.length + 1) name []
    (by rw [unvisitedCount_nil]; exact Nat.lt_succ_self _)
  exact ⟨d, v, heq, by simp [get_interface_depth, heq]⟩

/-- One-step unfolding of `depthGo` at positive fuel. -/
theorem depthGo_succ_eq (store : List (String × InterfaceInfo)) (fuel : Nat)
    (name : String) (visited : List String) :
    depthGo store (fuel + 1) name visited =
      if visited.contains name then some (0, visited)
      else
        match lookupIface store name with
        | none => some (1, visited)
        | some info =>
          if info.extendsL.isEmpty then some (1, name :: visited)
          else
            match depthStep (fun p v => depthGo store fuel p v) info.extendsL 0
                (name :: visited) with
            | none => none
            | some (m, v2) => some (m + 1, v2) := rfl

/-- A completed depth call on a name not in the visited set returns at
least 1 (the `return 0` cycle-terminator branch is not taken). -/
theorem depthGo_pos {store : List (String × InterfaceInfo)} {fuel : Nat}
    {name : String} {visited : List String} {d : Nat} {v : List String}
    (h : depthGo store (fuel + 1) name visited = some (d, v))
    (hc : name ∉ visited) : 1 ≤ d := by
  rw [depthGo_succ_eq] at h
  split at h
  · next hcond => exact absurd (by simpa using hcond) hc
  · next hcond =>
    split at h
    · simp only [Option.some.injEq, Prod.mk.injEq] at h
      omega
    · next info hinfo =>
      split at h
      · simp only [Option.some.injEq, Prod.mk.injEq] at h
        omega
      · split at h
        · cases h
        · next m v2 hstep =>
          simp only [Option.some.injEq, Prod.mk.injEq] at h
          omega

/-- Every top-level depth query returns at least 1. -/
theorem get_interface_depth_pos (store : List (String × InterfaceInfo))
    (name : String) : 1 ≤ get_interface_depth store name := by
  obtain ⟨d, v, heq, hval⟩ := depthGo_total store name
  rw [hval]
  exact depthGo_pos heq (by simp)

theorem foldl_max_init_le {α : Type} (g : α → Nat) :
    ∀ (l : List α) (init : Nat), init ≤ l.foldl (fun m x => max m (g x)) init := by
  intro l
  induction l with
  | nil => exact fun _ => Nat.le_refl _
  | cons a t ih =>
    intro init
    exact Nat.le_trans (Nat.le_max_left init (g a)) (ih (max init (g a)))

theorem foldl_max_mem_le {α : Type} (g : α → Nat) :
    ∀ (l : List α) (init : Nat) (x : α), x ∈ l →
      g x ≤ l.foldl (fun m x => max m (g x)) init := by
  intro l
  induction l with
  | nil => intro _ _ hx; cases hx
  | cons a t ih =>
    intro init x hx
    rcases List.mem_cons.mp hx with h | h
    · subst h
      exact Nat.le_trans (Nat.le_max_right init (g x)) (foldl_max_init_le g t _)
    · exact ih _ x h

/-- `max_call_depth` (as `_calculate_call_depths` computes it) is at least 1. -/
theorem maxCallDepth_pos (store : List (String × InterfaceInfo)) :
    1 ≤ maxCallDepth store :=
  foldl_max_init_le _ store 1

/-- Every stored interface's depth is bounded by the computed `max_call_depth`. -/
theorem get_interface_depth_le_maxCallDepth {store : List (String × InterfaceInfo)}
    {p : String × InterfaceInfo} (hp : p ∈ store) :
    get_interface_depth store p.1 ≤ maxCallDepth store := by
  unfold maxCallDepth
  exact foldl_max_mem_le (fun x => get_interface_depth store x.1) store 1 p hp

theorem lookupIface_mem {store : List (String × InterfaceInfo)} {name : String}
    {info : InterfaceInfo} (h : lookupIface store name = some info) :
    (name, info) ∈ store := by
  unfold lookupIface at h
  rcases hf : store.find? (fun p => p.1 == name) with _ | pr
  · rw [hf] at h; cases h
  · have hmem := List.mem_of_find?_eq_some hf
    have hpred := List.find?_some hf
    have h1 : pr.1 = name := by simpa using hpred
    rw [hf] at h
    have h2 : pr.2 = info := by
      rcases pr with ⟨a, b⟩
      simpa using h
    have : pr = (name, info) := by
      rcases pr with ⟨a, b⟩
      simp only at h1 h2
      rw [h1, h2]
    exact this ▸ hmem

/-- Three-decimal rounding maps the unit interval into itself. -/
theorem round3_mem_unit {q : ℚ} (h0 : 0 ≤ q) (h1 : q ≤ 1) :
    0 ≤ round3 q ∧ round3 q ≤ 1 := by
  have hx0 : (0 : ℚ) ≤ q * 1000 := by positivity
  have hx1 : q * 1000 ≤ 1000 := by nlinarith
  have hn0 : (0 : ℤ) ≤ Int.floor (q * 1000) := Int.floor_nonneg.mpr hx0
  have hnle : (Int.floor (q * 1000) : ℚ) ≤ q * 1000 := Int.floor_le _
  have hn1000 : Int.floor (q * 1000) ≤ 1000 := by
    have : (Int.floor (q * 1000) : ℚ) ≤ 1000 := le_trans hnle hx1
    exact_mod_cast this
  have hbounds : 0 ≤ roundHalfEven (q * 1000) ∧ roundHalfEven (q * 1000) ≤ 1000 := by
    unfold roundHalfEven
    split
    · exact ⟨hn0, hn1000⟩
    · next hlt =>
      split
      · next hgt =>
        constructor
        · omega
        · have : (Int.floor (q * 1000) : ℚ) + 1 / 2 < q * 1000 := by linarith
          have h999 : (Int.floor (q * 1000) : ℚ) < 1000 := by linarith
          have : Int.floor (q * 1000) < 1000 := by exact_mod_cast h999
          omega
      · next hgt2 =>
        have heq : q * 1000 - (Int.floor (q * 1000) : ℚ) = 1 / 2 := le_antisymm
          (not_lt.mp hgt2) (not_lt.mp hlt)
        have h999 : (Int.floor (q * 1000) : ℚ) < 1000 := by linarith
        have hlt1000 : Int.floor (q * 1000) < 1000 := by exact_mod_cast h999
        split
        · exact ⟨hn0, hn1000⟩
        · constructor
          · omega
          · omega
  constructor
  · unfold round3
    have : (0 : ℚ) ≤ (roundHalfEven (q * 1000) : ℚ) := by exact_mod_cast hbounds.1
    positivity
  · unfold round3
    have : (roundHalfEven (q * 1000) : ℚ) ≤ 1000 := by exact_mod_cast hbounds.2
    linarith

theorem nodup_subset_length_le {l1 l2 : List String} (hd : l1.Nodup)
    (hs : ∀ x ∈ l1, x ∈ l2) : l1.length ≤ l2.length := by
  have h1 : l1.toFinset.card = l1.length := List.toFinset_card_of_nodup hd
  have h2 : l1.toFinset ⊆ l2.toFinset := by
    intro x hx
    simp only [List.mem_toFinset] at hx ⊢
    exact hs x hx
  have h3 : l2.toFinset.card ≤ l2.length := l2.toFinset_card_le
  have h4 := Finset.card_le_card h2
  omega

/-- Well-formedness facts that hold for every analyzer state produced by
the ingestion and resolution phases (`analyze`): `total_classes` counts the
class dict, dict keys are unique, `usages` holds distinct class names (the
`if class_name not in usages` guard of `_find_usages`), `method_calls` is
keyed by the distinct declared method names (`_process_interface`), and
`max_call_depth` is the value `_calculate_call_depths` computes. -/
def WFState (s : AnalyzerState) : Prop :=
  s.total_classes = s.classes.length ∧
  (s.classes.map Prod.fst).Nodup ∧
  (∀ p ∈ s.interfaces, p.2.usages.Nodup) ∧
  (∀ p ∈ s.interfaces, ∀ u ∈ p.2.usages, u ∈ s.classes.map Prod.fst) ∧
  (∀ p ∈ s.interfaces, (p.2.method_calls.map Prod.fst).Nodup) ∧
  (∀ p ∈ s.interfaces, ∀ q ∈ p.2.method_calls, q.1 ∈ p.2.methods) ∧
  s.max_call_depth = maxCallDepth s.interfaces

instance decWFState (s : AnalyzerState) : Decidable (WFState s) := by
  unfold WFState
  exact inferInstance

/-- One-step unfolding of `refDepthGo` at positive fuel. -/
theorem refDepthGo_succ_eq (store : List (String × InterfaceInfo)) (fuel : Nat)
    (name : String) (visited : List String) :
    refDepthGo store (fuel + 1) name visited =
      if visited.contains name then some 0
      else
        match lookupIface store name with
        | none => some 1
        | some info =>
          match info.extendsL with
          | [] => some 1
          | ps =>
            match maxStep (fun p v => refDepthGo store fuel p v) ps (name :: visited) 0 with
            | none => none
            | some m => some (m + 1) := rfl

/-! ### Concrete stores used as inputs for the individual claims -/

-- A diamond-shaped extends-graph: A extends B and C; B extends D (a leaf);
-- C extends E which extends D.  The code's shared visited set makes the
-- C branch see D as already visited.
def dagA : InterfaceInfo := ⟨"A", "A.java", [], [], [], [], ["B", "C"]⟩
def dagB : InterfaceInfo := ⟨"B", "B.java", [], [], [], [], ["D"]⟩
def dagC : InterfaceInfo := ⟨"C", "C.java", [], [], [], [], ["E"]⟩
def dagD : InterfaceInfo := ⟨"D", "D.java", [], [], [], [], []⟩
def dagE : InterfaceInfo := ⟨"E", "E.java", [], [], [], [], ["D"]⟩
def dagIfaces : List (String × InterfaceInfo) :=
  [("A", dagA), ("B", dagB), ("C", dagC), ("D", dagD), ("E", dagE)]

-- A store with one interface I and one class C that lists I twice in its
-- implements clause.
def implIfaceI : InterfaceInfo := ⟨"I", "I.java", [], [], [], [], []⟩
def implStore : List (String × InterfaceInfo) := [("I", implIfaceI)]
def implClassC : ClassInfo := ⟨"C", "C.java", ["I", "I"], none, []⟩
def implClasses : List (String × ClassInfo) := [("C", implClassC)]

/-- C1: for the pure 2-cycle store (A extends B, B extends A) the claimed
depth values `depth(A) = depth(B) = 1` are wrong: both queries return 2. -/
theorem two_cycle_depth_ne_one :
    get_interface_depth cycIfaces "A" ≠ 1 ∧ get_interface_depth cycIfaces "B" ≠ 1 := by
  decide

/-- C1 (amended): on the pure 2-cycle store the depth computation
terminates (the fuel-bounded walk completes) and returns the positive
integer 2 for both interfaces: the revisited cycle entry contributes 0, so
depth(A) = 1 + (1 + 0) = 2, and symmetrically for B. -/
theorem two_cycle_depth_terminates_eq_two :
    (depthGo cycIfaces (cycIfaces.length + 1) "A" []).isSome ∧
    (depthGo cycIfaces (cycIfaces.length + 1) "B" []).isSome ∧
    get_interface_depth cycIfaces "A" = 2 ∧ get_interface_depth cycIfaces "B" = 2 ∧
    0 < get_interface_depth cycIfaces "A" ∧ 0 < get_interface_depth cycIfaces "B" := by
  decide

/-- C7: for every store (any extends-graph shape, cycles included) and
every starting name, the depth computation with a fresh empty visited set
terminates: the fuel-bounded embedding completes within `store.length + 1`
steps and `get_interface_depth` returns its result. -/
theorem depth_computation_total (store : List (String × InterfaceInfo)) (name : String) :
    ∃ d v, depthGo store (store.length + 1) name [] = some (d, v) ∧
      get_interface_depth store name = d :=
  depthGo_total store name

/-- C3 (amended): the code's recursion threads one visited set through the
whole walk (sibling branches included); it coincides with the
specification's path-local recursion whenever every stored interface has
at most one extends edge (chains and simple cycles), at every fuel,
starting name and visited set. -/
theorem depth_single_parent_agrees_spec (store : List (String × InterfaceInfo))
    (hsp : ∀ p ∈ store, p.2.extendsL.length ≤ 1) :
    ∀ fuel name visited,
      (depthGo store fuel name visited).map Prod.fst = refDepthGo store fuel name visited := by
  intro fuel
  induction fuel with
  | zero => intro name visited; rfl
  | succ f ih =>
    intro name visited
    rw [depthGo_succ_eq, refDepthGo_succ_eq]
    by_cases hc : name ∈ visited
    · simp [hc]
    · rcases hls : lookupIface store name with _ | info
      · simp [hc, hls]
      · have hmem := lookupIface_mem hls
        have hlen : info.extendsL.length ≤ 1 := hsp (name, info) hmem
        cases hext : info.extendsL with
        | nil => simp [hc, hls, hext]
        | cons p ps =>
          cases ps with
          | nil =>
            rcases hgo : depthGo store f p (name :: visited) with _ | dv
            · have href : refDepthGo store f p (name :: visited) = none := by
                rw [← ih p (name :: visited), hgo]; rfl
              simp [hc, hls, hext, depthStep, maxStep, hgo, href]
            · have href : refDepthGo store f p (name :: visited) = some dv.1 := by
                rw [← ih p (name :: visited), hgo]; rfl
              simp [hc, hls, hext, depthStep, maxStep, hgo, href]
          | cons q qs =>
            rw [hext] at hlen
            simp at hlen

theorem lookupIface_map_update (i2 cn : String) :
    ∀ (acc : List (String × InterfaceInfo)) (j : String),
      lookupIface (acc.map (fun p =>
        if p.1 == i2 then
          (p.1, { p.2 with implementations := p.2.implementations ++ [cn] })
        else p)) j =
      (lookupIface acc j).map (fun v =>
        if j = i2 then { v with implementations := v.implementations ++ [cn] } else v) := by
  intro acc
  induction acc with
  | nil => intro j; rfl
  | cons a t ih =>
    intro j
    have hkey : (if a.1 == i2 then
        (a.1, { a.2 with implementations := a.2.implementations ++ [cn] })
        else a).1 = a.1 := by
      by_cases h : a.1 == i2 <;> simp [h]
    by_cases hj : a.1 = j
    · subst hj
      by_cases hi : a.1 = i2
      · unfold lookupIface
        simp [List.find?_cons, hi]
      · unfold lookupIface
        have hib : (a.1 == i2) = false := beq_eq_false_iff_ne.mpr hi
        simp [List.find?_cons, hib, hi]
    · have hjb : ((if a.1 == i2 then
          (a.1, { a.2 with implementations := a.2.implementations ++ [cn] })
          else a).1 == j) = false := by
        rw [hkey]
        exact beq_eq_false_iff_ne.mpr hj
      have hjb2 : (a.1 == j) = false := beq_eq_false_iff_ne.mpr hj
      unfold lookupIface at ih ⊢
      simp only [List.map_cons, List.find?_cons, hjb, hjb2, cond_false]
      exact ih j

theorem lookupIface_appendImpl_self {acc : List (String × InterfaceInfo)}
    {iname : String} {info : InterfaceInfo} (cn : String)
    (h : lookupIface acc iname = some info) :
    lookupIface (appendImpl acc iname cn) iname =
      some { info with implementations := info.implementations ++ [cn] } := by
  unfold appendImpl
  rw [if_pos (by rw [h]; rfl)]
  rw [lookupIface_map_update, h]
  simp

theorem lookupIface_appendImpl_other {acc : List (String × InterfaceInfo)}
    {iname : String} (i2 cn : String) (hne : i2 ≠ iname) :
    lookupIface (appendImpl acc i2 cn) iname = lookupIface acc iname := by
  unfold appendImpl
  split
  · rw [lookupIface_map_update]
    rcases hl : lookupIface acc iname with _ | v
    · rfl
    · have hni : ¬(iname = i2) := fun hh => hne hh.symm
      simp [hni]
  · rfl

theorem lookup_foldl_appendImpl (cn : String) (iname : String) :
    ∀ (impls : List String) (acc : List (String × InterfaceInfo)) (info : InterfaceInfo),
      lookupIface acc iname = some info →
      lookupIface (impls.foldl (fun a i2 => appendImpl a i2 cn) acc) iname =
        some { info with implementations :=
          info.implementations ++ List.replicate (impls.count iname) cn } := by
  intro impls
  induction impls with
  | nil =>
    intro acc info h
    simpa using h
  | cons i2 rest ih =>
    intro acc info h
    rw [List.foldl_cons]
    by_cases hi : i2 = iname
    · subst hi
      have h2 := lookupIface_appendImpl_self cn h
      rw [ih _ _ h2]
      have hcount : (i2 :: rest).count i2 = rest.count i2 + 1 := by
        simp [List.count_cons]
      rw [hcount]
      simp [List.replicate_succ, List.append_assoc]
    · have h2 : lookupIface (appendImpl acc i2 cn) iname = some info := by
        rw [lookupIface_appendImpl_other i2 cn hi, h]
      rw [ih _ _ h2]
      have hcount : (i2 :: rest).count iname = rest.count iname := by
        have hni : ¬(iname = i2) := fun hh => hi hh.symm
        simp [List.count_cons, hni]
      rw [hcount]

/-- C4 (amended): deriving implementation links appends the type's name
once per occurrence of the interface name in the type's implements list
(no deduplication): after one pass, the interface's implementations list
has grown by the concatenation, over all classes in order, of the class
name replicated as many times as that class lists the interface.  Running
the pass twice therefore appends the segment twice. -/
theorem find_implementations_append_per_occurrence
    (classes : List (String × ClassInfo)) :
    ∀ (store : List (String × InterfaceInfo)) (iname : String) (info : InterfaceInfo),
      lookupIface store iname = some info →
      lookupIface (find_implementations classes store) iname =
        some { info with implementations := info.implementations ++
          (classes.map (fun p => List.replicate (p.2.implements.count iname) p.1)).flatten } := by
  induction classes with
  | nil =>
    intro store iname info h
    simpa [find_implementations] using h
  | cons c rest ih =>
    intro store iname info h
    have hinner := lookup_foldl_appendImpl c.1 iname c.2.implements store info h
    have hrest := ih _ iname _ hinner
    unfold find_implementations at hrest ⊢
    rw [List.foldl_cons]
    rw [hrest]
    simp [List.append_assoc]

/-- C4: idempotence fails: a class listing interface I twice in its
implements clause is appended twice, so its name appears twice (not
exactly once) in I's implementations list. -/
theorem find_implementations_duplicate_cex :
    (lookupIface (find_implementations implClasses implStore) "I").map
      (fun i => i.implementations) = some ["C", "C"] ∧
    (lookupIface (find_implementations implClasses implStore) "I").map
      (fun i => i.implementations) ≠ some ["C"] := by
  decide

theorem filter_orderedInsert_ipi (v : ℚ) (a : IpiRecord) :
    ∀ l : List IpiRecord,
      (List.orderedInsert ipiGE a l).filter (fun x => decide (x.IPI = v)) =
        if a.IPI = v then a :: l.filter (fun x => decide (x.IPI = v))
        else l.filter (fun x => decide (x.IPI = v)) := by
  intro l
  induction l with
  | nil =>
    by_cases hav : a.IPI = v <;> simp [List.orderedInsert, hav]
  | cons b t ih =>
    rw [List.orderedInsert]
    by_cases hab : ipiGE a b
    · rw [if_pos hab]
      by_cases hav : a.IPI = v <;> simp [List.filter_cons, hav]
    · rw [if_neg hab]
      by_cases hav : a.IPI = v
      · have hbv : ¬(b.IPI = v) := by
          intro hb
          exact hab (le_of_eq (hb.trans hav.symm))
        simp [List.filter_cons, hav, hbv, ih]
      · simp [List.filter_cons, hav, ih]

theorem filter_insertionSort_ipi (v : ℚ) :
    ∀ l : List IpiRecord,
      (l.insertionSort ipiGE).filter (fun x => decide (x.IPI = v)) =
        l.filter (fun x => decide (x.IPI = v)) := by
  intro l
  induction l with
  | nil => rfl
  | cons a t ih =>
    rw [List.insertionSort, filter_orderedInsert_ipi, ih]
    by_cases hav : a.IPI = v <;> simp [List.filter_cons, hav]

/-- C8: the report listing is ranked by descending (rounded) IPI and the
sort is stable: the sorted listing is a permutation of the records in
insertion order, consecutive entries are non-increasing in IPI, and for
every IPI value the records carrying it appear in their original insertion
order (filtering by any IPI value commutes with the sort). -/
theorem report_ranking_sorted_stable (s : AnalyzerState) :
    List.Sorted ipiGE (sortedResults s) ∧
    (sortedResults s).Perm (reportResults s) ∧
    ∀ v : ℚ, (sortedResults s).filter (fun x => decide (x.IPI = v)) =
      (reportResults s).filter (fun x => decide (x.IPI = v)) :=
  ⟨List.sorted_insertionSort ipiGE _, List.perm_insertionSort ipiGE _,
    fun v => filter_insertionSort_ipi v _⟩

/-- C9: re-running the per-interface metric computation (including the
embedded depth queries, whose visited set is freshly created per call) on
an unchanged analyzer state yields identical records and leaves the state
unchanged: the run is a pure function of the state. -/
theorem rerun_deterministic_state_unchanged (s : AnalyzerState) :
    (run_report (run_report s).2).1 = (run_report s).1 ∧ (run_report s).2 = s :=
  ⟨rfl, rfl⟩

/-- C10: `calculate_ipi` returns `None` exactly for names that are not
keys of the interface store; every stored name yields a record. -/
theorem calculate_ipi_none_iff_absent (s : AnalyzerState) (name : String) :
    calculate_ipi s name = none ↔ lookupIface s.interfaces name = none := by
  unfold calculate_ipi
  rcases h : lookupIface s.interfaces name with _ | info <;> simp

-- An interface declaring the method name f twice (a legal Java overload
-- pair), with the single call-map entry for f at count 0, inside an
-- otherwise empty analyzer state.
def dupIface : InterfaceInfo := ⟨"J", "J.java", ["f", "f"], [], [], [("f", 0)], []⟩
def dupState : AnalyzerState := ⟨[("J", dupIface)], [], 0, 1⟩

theorem round3_eval_lo (q : ℚ) (n : ℤ) (h1 : (n : ℚ) ≤ q * 1000)
    (h2 : q * 1000 < (n : ℚ) + 1) (h3 : q * 1000 - (n : ℚ) < 1 / 2) :
    round3 q = (n : ℚ) / 1000 := by
  have hf : Int.floor (q * 1000) = n := by
    rw [Int.floor_eq_iff]
    exact ⟨h1, by exact_mod_cast h2⟩
  unfold round3 roundHalfEven
  rw [hf, if_pos h3]

theorem round3_eval_hi (q : ℚ) (n : ℤ) (h1 : (n : ℚ) ≤ q * 1000)
    (h2 : q * 1000 < (n : ℚ) + 1) (h3 : 1 / 2 < q * 1000 - (n : ℚ)) :
    round3 q = ((n : ℚ) + 1) / 1000 := by
  have hf : Int.floor (q * 1000) = n := by
    rw [Int.floor_eq_iff]
    exact ⟨h1, by exact_mod_cast h2⟩
  unfold round3 roundHalfEven
  rw [hf, if_neg (by linarith), if_pos h3]
  push_cast
  ring

theorem filter_zero_length_eq_count (mc : List (String × Nat)) :
    (mc.filter (fun p => p.2 == 0)).length = (mc.map Prod.snd).count 0 := by
  induction mc with
  | nil => rfl
  | cons a t ih =>
    rcases ha : (a.2 == 0) with _ | _
    · rw [List.filter_cons, List.map_cons, List.count_cons, ha]
      simp [ih]
    · rw [List.filter_cons, List.map_cons, List.count_cons, ha]
      simp [ih]

/-- C5 (amended): the UMR numerator counts the entries of the per-interface
call-count map (one entry per distinct declared method name) whose count
is zero, while the denominator is the length of the declared method
sequence with duplicates; the record's UMR field is the rounded quotient,
and 0 when the method sequence is empty. -/
theorem umr_counts_distinct_call_entries (s : AnalyzerState) (name : String)
    (info : InterfaceInfo) (h : lookupIface s.interfaces name = some info) :
    (calculate_ipi s name).map (fun r => r.UMR) =
      some (round3 (if info.methods.length = 0 then 0
        else ((info.method_calls.map Prod.snd).count 0 : ℚ) / (info.methods.length : ℚ))) := by
  unfold calculate_ipi
  rw [h]
  show some _ = some _
  rw [Option.some.injEq]
  rw [filter_zero_length_eq_count]
  rcases Nat.eq_zero_or_pos info.methods.length with hz | hp
  · rw [hz]
    norm_num
  · rw [if_pos hp, if_neg (Nat.pos_iff_ne_zero.mp hp)]

/-- C5: a duplicated method name breaks the claimed formula: for interface
J with declared methods `[f, f]` and `calls[f] = 0`, the claimed UMR is
2/2 = 1 (both occurrences counted), but the code counts the single
call-map entry, giving 1/2. -/
theorem umr_duplicate_methods_cex :
    (calculate_ipi dupState "J").map (fun r => r.UMR) = some (1 / 2) ∧
    umrSpec dupIface = 1 ∧ ((1 : ℚ) / 2) ≠ 1 := by
  refine ⟨?_, ?_, by norm_num⟩
  · have hl : lookupIface dupState.interfaces "J" = some dupIface := by decide
    unfold calculate_ipi
    rw [hl]
    show some _ = some _
    rw [Option.some.injEq]
    have hm : dupIface.methods.length = 2 := by decide
    have hmc : (dupIface.method_calls.filter (fun p => p.2 == 0)).length = 1 := by decide
    rw [hm, hmc, if_pos (show (2 : ℕ) > 0 by norm_num)]
    rw [show ((1 : ℕ) : ℚ) / ((2 : ℕ) : ℚ) = 1 / 2 by norm_num]
    rw [round3_eval_lo (1 / 2) 500 (by norm_num) (by norm_num) (by norm_num)]
    norm_num
  · have h1 : dupIface.methods.length = 2 := by decide
    have h2 : (dupIface.methods.filter
        (fun m => lookupCall dupIface.method_calls m == some 0)).length = 2 := by decide
    unfold umrSpec
    rw [h1, h2]
    norm_num

/-- C6: for every well-formed analyzer state (as the ingestion and
resolution phases produce) and every computed record, the four sub-metrics
SIR, UUR, UMR, NCD and the IPI (with the default weights) all lie in the
unit interval. -/
theorem submetrics_and_ipi_in_unit_interval (s : AnalyzerState) (hwf : WFState s)
    (name : String) (r : IpiRecord) (hr : calculate_ipi s name = some r) :
    (0 ≤ r.SIR ∧ r.SIR ≤ 1) ∧ (0 ≤ r.UUR ∧ r.UUR ≤ 1) ∧ (0 ≤ r.UMR ∧ r.UMR ≤ 1) ∧
    (0 ≤ r.NCD ∧ r.NCD ≤ 1) ∧ (0 ≤ r.IPI ∧ r.IPI ≤ 1) := by
  obtain ⟨htc, hcn, hun, hus, hmcn, hmcs, hmcd⟩ := hwf
  rcases hl : lookupIface s.interfaces name with _ | info
  · unfold calculate_ipi at hr
    rw [hl] at hr
    cases hr
  · have hmem := lookupIface_mem hl
    unfold calculate_ipi at hr
    rw [hl] at hr
    rw [Option.some.injEq] at hr
    subst hr
    dsimp only
    have hiu : info.usages.length ≤ s.classes.length := by
      have h := nodup_subset_length_le (hun (name, info) hmem) (hus (name, info) hmem)
      rwa [List.length_map] at h
    have hunused : (info.method_calls.filter (fun p => p.2 == 0)).length ≤
        info.methods.length := by
      have h1 : (info.method_calls.filter (fun p => p.2 == 0)).length ≤
          info.method_calls.length := List.length_filter_le _ _
      have h2 : (info.method_calls.map Prod.fst).length ≤ info.methods.length := by
        apply nodup_subset_length_le (hmcn (name, info) hmem)
        intro x hx
        obtain ⟨q, hq, hqx⟩ := List.mem_map.mp hx
        exact hqx ▸ hmcs (name, info) hmem q hq
      rw [List.length_map] at h2
      omega
    have hcd1 : 1 ≤ get_interface_depth s.interfaces name := get_interface_depth_pos _ _
    have hcdle : get_interface_depth s.interfaces name ≤ s.max_call_depth := by
      rw [hmcd]
      exact get_interface_depth_le_maxCallDepth hmem
    have hsir : 0 ≤ (if info.implementations.length > 0 then
        1 / ((info.implementations.length : ℕ) : ℚ) else 1) ∧
        (if info.implementations.length > 0 then
          1 / ((info.implementations.length : ℕ) : ℚ) else 1) ≤ 1 := by
      by_cases hpos : info.implementations.length > 0
      · rw [if_pos hpos]
        have hc1 : (1 : ℚ) ≤ (info.implementations.length : ℚ) := by exact_mod_cast hpos
        constructor
        · positivity
        · rw [div_le_one (by linarith)]
          linarith
      · rw [if_neg hpos]
        norm_num
    have huur : 0 ≤ ((info.usages.length : ℚ) / ((max s.total_classes 1 : ℕ) : ℚ)) ∧
        ((info.usages.length : ℚ) / ((max s.total_classes 1 : ℕ) : ℚ)) ≤ 1 := by
      have hden : (0 : ℚ) < ((max s.total_classes 1 : ℕ) : ℚ) := by
        have h1 : 1 ≤ max s.total_classes 1 := le_max_right _ _
        have : (1 : ℚ) ≤ ((max s.total_classes 1 : ℕ) : ℚ) := by exact_mod_cast h1
        linarith
      constructor
      · positivity
      · rw [div_le_one hden]
        have hle : info.usages.length ≤ max s.total_classes 1 := by
          rw [htc]
          omega
        exact_mod_cast hle
    have humr : 0 ≤ (if info.methods.length > 0 then
        (((info.method_calls.filter (fun p => p.2 == 0)).length : ℕ) : ℚ) /
          ((info.methods.length : ℕ) : ℚ) else 0) ∧
        (if info.methods.length > 0 then
          (((info.method_calls.filter (fun p => p.2 == 0)).length : ℕ) : ℚ) /
            ((info.methods.length : ℕ) : ℚ) else 0) ≤ 1 := by
      by_cases hpos : info.methods.length > 0
      · rw [if_pos hpos]
        have hden : (0 : ℚ) < (info.methods.length : ℚ) := by exact_mod_cast hpos
        constructor
        · positivity
        · rw [div_le_one hden]
          exact_mod_cast hunused
      · rw [if_neg hpos]
        norm_num
    have hncd : 0 ≤ (if s.max_call_depth > 1 then
        ((get_interface_depth s.interfaces name : ℚ) - 1) /
          ((s.max_call_depth : ℚ) - 1) else 0) ∧
        (if s.max_call_depth > 1 then
          ((get_interface_depth s.interfaces name : ℚ) - 1) /
            ((s.max_call_depth : ℚ) - 1) else 0) ≤ 1 := by
      by_cases hpos : s.max_call_depth > 1
      · rw [if_pos hpos]
        have hd2 : (2 : ℚ) ≤ (s.max_call_depth : ℚ) := by exact_mod_cast hpos
        have hcdq : (1 : ℚ) ≤ (get_interface_depth s.interfaces name : ℚ) := by
          exact_mod_cast hcd1
        have hleq : ((get_interface_depth s.interfaces name : ℚ)) ≤
            (s.max_call_depth : ℚ) := by exact_mod_cast hcdle
        constructor
        · apply div_nonneg <;> linarith
        · rw [div_le_one (by linarith)]
          linarith
      · rw [if_neg hpos]
        norm_num
    refine ⟨round3_mem_unit hsir.1 hsir.2, round3_mem_unit huur.1 huur.2,
      round3_mem_unit humr.1 humr.2, round3_mem_unit hncd.1 hncd.2,
      round3_mem_unit ?_ ?_⟩
    · obtain ⟨ha1, ha2⟩ := hsir
      obtain ⟨hb1, hb2⟩ := huur
      obtain ⟨hc1, hc2⟩ := humr
      obtain ⟨hd1, hd2⟩ := hncd
      unfold ALPHA BETA GAMMA DELTA
      nlinarith
    · obtain ⟨ha1, ha2⟩ := hsir
      obtain ⟨hb1, hb2⟩ := huur
      obtain ⟨hc1, hc2⟩ := humr
      obtain ⟨hd1, hd2⟩ := hncd
      unfold ALPHA BETA GAMMA DELTA
      nlinarith

-- A minimal well-formed state: one empty interface, one class.
def wIface : InterfaceInfo := ⟨"A", "A.java", [], [], [], [], []⟩
def wClass : ClassInfo := ⟨"K", "K.java", [], none, []⟩
def wState : AnalyzerState := ⟨[("A", wIface)], [("K", wClass)], 1, 1⟩
def wRecord : IpiRecord :=
  ⟨"A", 0, round3 1, 0, round3 0, 0, 0, round3 0, 1, round3 0, round3 (2 / 5)⟩

theorem wState_calc : calculate_ipi wState "A" = some wRecord := by
  have hl : lookupIface wState.interfaces "A" = some wIface := by decide
  unfold calculate_ipi
  rw [hl, Option.some.injEq]
  have e1 : wIface.implementations.length = 0 := by decide
  have e2 : wIface.usages.length = 0 := by decide
  have e3 : wIface.methods.length = 0 := by decide
  have e4 : (wIface.method_calls.filter (fun p => p.2 == 0)).length = 0 := by decide
  have e5 : get_interface_depth wState.interfaces "A" = 1 := by decide
  have e6 : wState.total_classes = 1 := rfl
  have e7 : wState.max_call_depth = 1 := rfl
  rw [e1, e2, e3, e4, e5, e6, e7]
  norm_num [wRecord, ALPHA, BETA, GAMMA, DELTA]

/-- Witness for C6: the bounds theorem applied to the minimal well-formed
state and its computed record. -/
theorem submetrics_and_ipi_in_unit_interval_witness :
    WFState wState ∧
    ((0 ≤ wRecord.SIR ∧ wRecord.SIR ≤ 1) ∧ (0 ≤ wRecord.UUR ∧ wRecord.UUR ≤ 1) ∧
      (0 ≤ wRecord.UMR ∧ wRecord.UMR ≤ 1) ∧ (0 ≤ wRecord.NCD ∧ wRecord.NCD ≤ 1) ∧
      (0 ≤ wRecord.IPI ∧ wRecord.IPI ≤ 1)) :=
  ⟨by decide,
    submetrics_and_ipi_in_unit_interval wState (by decide) "A" wRecord wState_calc⟩

/-! ### A state whose exact IPI exceeds 0.7 but whose rounded IPI is 0.7

Interface X: one implementation (SIR = 1), used by 12 of 31 classes
(UUR = 12/31), one of two methods unused (UMR = 1/2), inheritance depth 3
with project maximum 4 (NCD = 2/3).  Exact IPI
= 1/4 + (3/20)(19/31) + 1/8 + 7/30 = 521/744 ≈ 0.70027 > 0.7, which rounds
to 0.700. -/

def c2Names : List String :=
  ["c1", "c2", "c3", "c4", "c5", "c6", "c7", "c8", "c9", "c10", "c11", "c12",
   "c13", "c14", "c15", "c16", "c17", "c18", "c19", "c20", "c21", "c22",
   "c23", "c24", "c25", "c26", "c27", "c28", "c29", "c30", "c31"]
def c2Classes : List (String × ClassInfo) :=
  c2Names.map (fun n => (n, ⟨n, n ++ ".java", [], none, []⟩))
def c2Usages : List String :=
  ["c1", "c2", "c3", "c4", "c5", "c6", "c7", "c8", "c9", "c10", "c11", "c12"]
def c2X : InterfaceInfo :=
  ⟨"X", "X.java", ["m1", "m2"], ["c1"], c2Usages, [("m1", 1), ("m2", 0)], ["P1"]⟩
def c2P1 : InterfaceInfo := ⟨"P1", "P.java", [], [], [], [], ["P2"]⟩
def c2P2 : InterfaceInfo := ⟨"P2", "P.java", [], [], [], [], []⟩
def c2D1 : InterfaceInfo := ⟨"D1", "D.java", [], [], [], [], ["D2"]⟩
def c2D2 : InterfaceInfo := ⟨"D2", "D.java", [], [], [], [], ["D3"]⟩
def c2D3 : InterfaceInfo := ⟨"D3", "D.java", [], [], [], [], ["D4"]⟩
def c2D4 : InterfaceInfo := ⟨"D4", "D.java", [], [], [], [], []⟩
def c2Ifaces : List (String × InterfaceInfo) :=
  [("X", c2X), ("P1", c2P1), ("P2", c2P2), ("D1", c2D1), ("D2", c2D2),
   ("D3", c2D3), ("D4", c2D4)]
def c2State : AnalyzerState := ⟨c2Ifaces, c2Classes, 31, 4⟩
def c2Rec : IpiRecord :=
  ⟨"X", 1, round3 1, 12, round3 (12 / 31), 2, 1, round3 (1 / 2), 3,
    round3 (2 / 3), round3 (521 / 744)⟩

theorem c2State_calc : calculate_ipi c2State "X" = some c2Rec := by
  have hl : lookupIface c2State.interfaces "X" = some c2X := by decide
  unfold calculate_ipi
  rw [hl, Option.some.injEq]
  have e1 : c2X.implementations.length = 1 := by decide
  have e2 : c2X.usages.length = 12 := by decide
  have e3 : c2X.methods.length = 2 := by decide
  have e4 : (c2X.method_calls.filter (fun p => p.2 == 0)).length = 1 := by decide
  have e5 : get_interface_depth c2State.interfaces "X" = 3 := by decide
  have e6 : c2State.total_classes = 31 := rfl
  have e7 : c2State.max_call_depth = 4 := rfl
  rw [e1, e2, e3, e4, e5, e6, e7]
  norm_num [c2Rec, ALPHA, BETA, GAMMA, DELTA]

theorem c2State_exact : ipi_exact c2State "X" = some (521 / 744) := by
  have hl : lookupIface c2State.interfaces "X" = some c2X := by decide
  unfold ipi_exact
  rw [hl, Option.some.injEq]
  have e1 : c2X.implementations.length = 1 := by decide
  have e2 : c2X.usages.length = 12 := by decide
  have e3 : c2X.methods.length = 2 := by decide
  have e4 : (c2X.method_calls.filter (fun p => p.2 == 0)).length = 1 := by decide
  have e5 : get_interface_depth c2State.interfaces "X" = 3 := by decide
  have e6 : c2State.total_classes = 31 := rfl
  have e7 : c2State.max_call_depth = 4 := rfl
  rw [e1, e2, e3, e4, e5, e6, e7]
  norm_num [ALPHA, BETA, GAMMA, DELTA]

/-- C2: the severity band is not determined by the exact computed IPI
value: on `c2State` the exact IPI of X is 521/744 > 0.7, yet the report
bands X as MEDIUM (not HIGH), because the band filters are applied to the
IPI rounded to three decimals, which is exactly 0.700 here. -/
theorem severity_uses_rounded_ipi_cex :
    ipi_exact c2State "X" = some (521 / 744) ∧ (7 : ℚ) / 10 < 521 / 744 ∧
    severityOf c2State "X" = some Sev.MEDIUM ∧
    severityOf c2State "X" ≠ some Sev.HIGH := by
  have hsev : severityOf c2State "X" = some Sev.MEDIUM := by
    unfold severityOf
    rw [c2State_calc]
    show some _ = some _
    rw [Option.some.injEq]
    show band c2Rec.IPI = Sev.MEDIUM
    have hipi : c2Rec.IPI = round3 (521 / 744) := rfl
    rw [hipi, round3_eval_lo (521 / 744) 700 (by norm_num) (by norm_num) (by norm_num)]
    unfold band
    rw [if_neg (by norm_num), if_pos (by norm_num)]
  refine ⟨c2State_exact, by norm_num, hsev, ?_⟩
  rw [hsev]
  decide

/-- C2 (amended): severity is assigned from the IPI rounded to three
decimals, not from the exact value: every record's IPI field is the
rounding of the exact ipi and the assigned band is the band of that
rounded value; the boundaries keep 0.7 and 0.4 in MEDIUM, and an exact IPI
of 0.7000001 rounds to 0.700 and is therefore banded MEDIUM, not HIGH. -/
theorem severity_band_of_rounded_ipi :
    (∀ (s : AnalyzerState) (n : String) (q : ℚ) (r : IpiRecord),
      ipi_exact s n = some q → calculate_ipi s n = some r →
      r.IPI = round3 q ∧ severityOf s n = some (band (round3 q))) ∧
    band (7 / 10) = Sev.MEDIUM ∧ band (4 / 10) = Sev.MEDIUM ∧
    band (round3 (7000001 / 10000000)) = Sev.MEDIUM := by
  refine ⟨?_, ?_, ?_, ?_⟩
  · intro s n q r hq hr
    rcases hl : lookupIface s.interfaces n with _ | info
    · unfold ipi_exact at hq
      rw [hl] at hq
      cases hq
    · unfold ipi_exact at hq
      unfold calculate_ipi at hr
      rw [hl] at hq hr
      rw [Option.some.injEq] at hq hr
      subst hq
      subst hr
      constructor
      · rfl
      · unfold severityOf calculate_ipi
        rw [hl]
        rfl
  · unfold band
    rw [if_neg (by norm_num), if_pos (by norm_num)]
  · unfold band
    rw [if_neg (by norm_num), if_pos (by norm_num)]
  · rw [round3_eval_lo (7000001 / 10000000) 700 (by norm_num) (by norm_num) (by norm_num)]
    unfold band
    rw [if_neg (by norm_num), if_pos (by norm_num)]

/-- Witness for the amended C2 theorem at `c2State`. -/
theorem severity_band_of_rounded_ipi_witness :
    c2Rec.IPI = round3 (521 / 744) ∧
    severityOf c2State "X" = some (band (round3 (521 / 744))) :=
  severity_band_of_rounded_ipi.1 c2State "X" (521 / 744) c2Rec c2State_exact c2State_calc

/-- C3: the code's depth walk does not equal the specification's
path-local recursion: on the diamond store the code returns 3 (the C
branch sees D as visited because the B branch added it to the shared set),
while the reference recursion, whose visited set is extended per path,
returns 4. -/
theorem depth_shared_visited_cex :
    get_interface_depth dagIfaces "A" = 3 ∧
    refDepthGo dagIfaces 10 "A" [] = some 4 ∧
    refDepthGo dagIfaces 10 "A" [] ≠ some (get_interface_depth dagIfaces "A") := by
  decide

/-- Witness for the amended C3 theorem at the 2-cycle store, where every
interface has exactly one extends edge. -/
theorem depth_single_parent_agrees_spec_witness :
    (depthGo cycIfaces 3 "A" []).map Prod.fst = refDepthGo cycIfaces 3 "A" [] :=
  depth_single_parent_agrees_spec cycIfaces (by decide) 3 "A" []

/-- Witness for the amended C4 theorem at the duplicate-implements store. -/
theorem find_implementations_append_per_occurrence_witness :
    lookupIface (find_implementations implClasses implStore) "I" =
      some { implIfaceI with implementations := implIfaceI.implementations ++
        (implClasses.map (fun p => List.replicate (p.2.implements.count "I") p.1)).flatten } :=
  find_implementations_append_per_occurrence implClasses implStore "I" implIfaceI (by decide)

/-- Witness for the amended C5 theorem at the duplicated-method store. -/
theorem umr_counts_distinct_call_entries_witness :
    (calculate_ipi dupState "J").map (fun r => r.UMR) =
      some (round3 (if dupIface.methods.length = 0 then 0
        else ((dupIface.method_calls.map Prod.snd).count 0 : ℚ) /
          (dupIface.methods.length : ℚ))) :=
  umr_counts_distinct_call_entries dupState "J" dupIface (by decide)
